import Mathlib

/-!
Verification of the `newline_normalizer` crate (`src/lib.rs`).

Byte buffers are modelled as `List Nat` (one entry per byte); the two
newline bytes are `13` (`\r`) and `10` (`\n`).  The Rust functions return
`Cow<str>`; we model that with the `Cow` type below.  Slice indexing in
Rust panics when out of range, so every indexing step of the embedded
algorithms goes through `Option`: a `none` result models a panic.
-/

namespace NewlineNormalizer

/-- Model of `std::borrow::Cow<str>`: either the borrowed input itself or a
freshly built owned buffer. -/
inductive Cow where
  | borrowed : List Nat → Cow
  | owned : List Nat → Cow
deriving DecidableEq

/-- The byte content of a `Cow` result. -/
def Cow.bytes : Cow → List Nat
  | .borrowed s => s
  | .owned s => s

/-- Ascending positions of byte `b` in `slice`; models `memchr::memchr_iter`. -/
def memchr_iter (b : Nat) (slice : List Nat) : List Nat :=
  (List.range slice.length).filter (fun i => slice.getD i 0 == b)

/-- Ascending positions of byte `b1` or `b2` in `slice`; models
`memchr::memchr2_iter`. -/
def memchr2_iter (b1 b2 : Nat) (slice : List Nat) : List Nat :=
  (List.range slice.length).filter
    (fun i => slice.getD i 0 == b1 || slice.getD i 0 == b2)

/-- `&slice[a..b]`; `none` models the panic on an invalid range. -/
def sliceIndex (slice : List Nat) (a b : Nat) : Option (List Nat) :=
  if a ≤ b ∧ b ≤ slice.length then some ((slice.drop a).take (b - a)) else none

/-- The rewrite loop of `to_unix_newlines` (`src/lib.rs` lines 59-80):
`out` is the buffer built so far, `cr` the current match of `\r`, `iter`
the remaining matches, `pos` the first unconsumed input position. -/
def unixLoop (slice : List Nat) (end_index : Nat) (out : List Nat)
    (cr : Nat) (iter : List Nat) (pos : Nat) : Option (List Nat) :=
  match sliceIndex slice pos cr with
  | none => none
  | some seg =>
    let out2 := out ++ seg ++ [10]
    let pos2 := cr + 1
    -- `if cr < end_index && slice[pos] == b'\n' { pos += 1 }`
    let pos3? : Option Nat :=
      if cr < end_index then
        match slice.get? pos2 with
        | none => none
        | some b => some (if b = 10 then pos2 + 1 else pos2)
      else some pos2
    match pos3? with
    | none => none
    | some pos3 =>
      match iter with
      | next_cr :: rest => unixLoop slice end_index out2 next_cr rest pos3
      | [] =>
        if pos3 < slice.length then
          match sliceIndex slice pos3 slice.length with
          | none => none
          | some tail => some (out2 ++ tail)
        else some out2

/-- `ToUnixNewlines::to_unix_newlines` for `str` (`src/lib.rs` lines 48-83). -/
def to_unix_newlines (self : List Nat) : Option Cow :=
  let slice := self
  let len := slice.length
  let end_index := len - 1        -- `len.saturating_sub(1)`
  match memchr_iter 13 slice with
  | [] => some (Cow.borrowed self)
  | cr :: rest =>
    match unixLoop slice end_index [] cr rest 0 with
    | none => none
    | some out => some (Cow.owned out)

/-- One evaluation of the pair-classification condition of
`to_dos_newlines` (`src/lib.rs` lines 96-99), with the same short-circuit
index accesses as the source. -/
def dosPairedAt (slice : List Nat) (end_index : Nat) (match_pos : Nat) :
    Option Bool :=
  match slice.get? match_pos with
  | none => none
  | some b =>
    if b = 13 then
      if match_pos < end_index then
        match slice.get? (match_pos + 1) with
        | none => none
        | some b2 => some (b2 = 10)
      else some false
    else if b = 10 then
      if 0 < match_pos then
        match slice.get? (match_pos - 1) with
        | none => none
        | some b0 => some (b0 = 13)
      else some false
    else some false

/-- The first `while let` loop of `to_dos_newlines` (`src/lib.rs` lines
94-101): skip correctly paired matches; result `some none` models the
`crlf == usize::MAX` case (no unpaired match found), `some (some (crlf,
rest))` the break with the first unpaired match and the rest of the
iterator. -/
def dosFindUnpaired (slice : List Nat) (end_index : Nat) :
    List Nat → Option (Option (Nat × List Nat))
  | [] => some none
  | match_pos :: rest =>
    match dosPairedAt slice end_index match_pos with
    | none => none
    | some true => dosFindUnpaired slice end_index rest
    | some false => some (some (match_pos, rest))

/-- The rewrite loop of `to_dos_newlines` (`src/lib.rs` lines 111-129). -/
def dosLoop (slice : List Nat) (end_index : Nat) (out : List Nat)
    (crlf : Nat) (iter : List Nat) (pos : Nat) : Option (List Nat) :=
  let step : Option (List Nat × Nat) :=
    if pos ≤ crlf then      -- `if crlf >= pos`
      match sliceIndex slice pos crlf with
      | none => none
      | some seg =>
        match slice.get? crlf with
        | none => none
        | some current =>
          let out2 := out ++ seg ++ [13, 10]
          let pos2 := crlf + 1
          -- `if current == b'\r' && crlf < end_index && slice[pos] == b'\n'`
          if current = 13 ∧ crlf < end_index then
            match slice.get? pos2 with
            | none => none
            | some b => some (out2, if b = 10 then pos2 + 1 else pos2)
          else some (out2, pos2)
    else some (out, pos)
  match step with
  | none => none
  | some (out2, pos2) =>
    match iter with
    | next :: rest => dosLoop slice end_index out2 next rest pos2
    | [] =>
      if pos2 < slice.length then
        match sliceIndex slice pos2 slice.length with
        | none => none
        | some tail => some (out2 ++ tail)
      else some out2

/-- `ToDosNewlines::to_dos_newlines` for `str` (`src/lib.rs` lines 85-135). -/
def to_dos_newlines (self : List Nat) : Option Cow :=
  let slice := self
  let len := slice.length
  let end_index := len - 1        -- `len.saturating_sub(1)`
  match dosFindUnpaired slice end_index (memchr2_iter 10 13 slice) with
  | none => none
  | some none => some (Cow.borrowed self)
  | some (some (crlf, rest)) =>
    match dosLoop slice end_index [] crlf rest 0 with
    | none => none
    | some out => some (Cow.owned out)

/-! ### Spec-side reference definitions

The following definitions transcribe the *contracts* stated in the
specification (one `\n` per newline occurrence for unix form, one `\r\n`
per newline occurrence for dos form, `\r\n` treated as a single unit,
all other bytes preserved in order); the theorems below relate the code
above to them. -/

/-- Reference unix normalization, following the spec's words: every
newline occurrence (`\r\n` pair, lone `\r`, lone `\n`) becomes a single
`\n`, every other byte is preserved. -/
def unixSpecNorm : List Nat → List Nat
  | [] => []
  | 13 :: 10 :: rest => 10 :: unixSpecNorm rest
  | 13 :: rest => 10 :: unixSpecNorm rest
  | b :: rest => b :: unixSpecNorm rest

/-- Reference dos normalization, following the spec's words: every newline
occurrence becomes `\r\n` (existing pairs kept as one unit, lone `\r` and
lone `\n` expanded), every other byte is preserved. -/
def dosSpecNorm : List Nat → List Nat
  | [] => []
  | 13 :: 10 :: rest => 13 :: 10 :: dosSpecNorm rest
  | 13 :: rest => 13 :: 10 :: dosSpecNorm rest
  | 10 :: rest => 13 :: 10 :: dosSpecNorm rest
  | b :: rest => b :: dosSpecNorm rest

/-- Number of newline occurrences of a text: each `\r\n` pair, each lone
`\r` and each lone `\n` counts as one. -/
def newlineCount : List Nat → Nat
  | [] => 0
  | 13 :: 10 :: rest => 1 + newlineCount rest
  | 13 :: rest => 1 + newlineCount rest
  | 10 :: rest => 1 + newlineCount rest
  | _ :: rest => newlineCount rest

/-- Structural well-pairedness: the text is a sequence of `\r\n` units and
non-newline bytes. -/
def wellPairedB : List Nat → Bool
  | [] => true
  | 13 :: 10 :: rest => wellPairedB rest
  | 13 :: _ => false
  | 10 :: _ => false
  | _ :: rest => wellPairedB rest

/-- Positional well-pairedness, as the spec words it: every `\r` is
immediately followed by `\n` and every `\n` is immediately preceded by
`\r`. -/
def fullyPaired (s : List Nat) : Prop :=
  ∀ i, i < s.length →
    (s.getD i 0 = 13 → i + 1 < s.length ∧ s.getD (i + 1) 0 = 10) ∧
    (s.getD i 0 = 10 → 0 < i ∧ s.getD (i - 1) 0 = 13)

/-- The classification of a match position used by the skip loop of
`to_dos_newlines`, as a proposition. -/
def PairedAt (s : List Nat) (m : Nat) : Prop :=
  (s.getD m 0 = 13 ∧ m + 1 < s.length ∧ s.getD (m + 1) 0 = 10) ∨
  (s.getD m 0 = 10 ∧ 0 < m ∧ s.getD (m - 1) 0 = 13)

instance (s : List Nat) (m : Nat) : Decidable (PairedAt s m) := by
  unfold PairedAt; infer_instance

/-- UTF-8 continuation byte. -/
def Cont (b : Nat) : Prop := 0x80 ≤ b ∧ b ≤ 0xBF

/-- Valid UTF-8 byte sequences (RFC 3629 table: no overlongs, no
surrogates, max `U+10FFFF`). -/
inductive Utf8Chunks : List Nat → Prop where
  | nil : Utf8Chunks []
  | ascii {b rest} : b ≤ 0x7F → Utf8Chunks rest → Utf8Chunks (b :: rest)
  | two {b c1 rest} : 0xC2 ≤ b → b ≤ 0xDF → Cont c1 → Utf8Chunks rest →
      Utf8Chunks (b :: c1 :: rest)
  | threeE0 {c1 c2 rest} : 0xA0 ≤ c1 → c1 ≤ 0xBF → Cont c2 →
      Utf8Chunks rest → Utf8Chunks (0xE0 :: c1 :: c2 :: rest)
  | threeMid {b c1 c2 rest} : 0xE1 ≤ b → b ≤ 0xEC → Cont c1 → Cont c2 →
      Utf8Chunks rest → Utf8Chunks (b :: c1 :: c2 :: rest)
  | threeED {c1 c2 rest} : 0x80 ≤ c1 → c1 ≤ 0x9F → Cont c2 →
      Utf8Chunks rest → Utf8Chunks (0xED :: c1 :: c2 :: rest)
  | threeHi {b c1 c2 rest} : 0xEE ≤ b → b ≤ 0xEF → Cont c1 → Cont c2 →
      Utf8Chunks rest → Utf8Chunks (b :: c1 :: c2 :: rest)
  | fourF0 {c1 c2 c3 rest} : 0x90 ≤ c1 → c1 ≤ 0xBF → Cont c2 → Cont c3 →
      Utf8Chunks rest → Utf8Chunks (0xF0 :: c1 :: c2 :: c3 :: rest)
  | fourMid {b c1 c2 c3 rest} : 0xF1 ≤ b → b ≤ 0xF3 → Cont c1 → Cont c2 →
      Cont c3 → Utf8Chunks rest → Utf8Chunks (b :: c1 :: c2 :: c3 :: rest)
  | fourF4 {c1 c2 c3 rest} : 0x80 ≤ c1 → c1 ≤ 0x8F → Cont c2 → Cont c3 →
      Utf8Chunks rest → Utf8Chunks (0xF4 :: c1 :: c2 :: c3 :: rest)

end NewlineNormalizer
namespace NewlineNormalizer

lemma unixSpecNorm_cr (l : List Nat) (h : l.head? ≠ some 10) :
    unixSpecNorm (13 :: l) = 10 :: unixSpecNorm l := by
  match l, h with
  | [], _ => rfl
  | b :: l, h =>
    have hb : b ≠ 10 := by simpa using h
    rw [unixSpecNorm.eq_def]
    split <;> simp_all

lemma unixSpecNorm_cons_ne (b : Nat) (l : List Nat) (h : b ≠ 13) :
    unixSpecNorm (b :: l) = b :: unixSpecNorm l := by
  rw [unixSpecNorm.eq_def]
  split <;> simp_all

lemma dosSpecNorm_cr (l : List Nat) (h : l.head? ≠ some 10) :
    dosSpecNorm (13 :: l) = 13 :: 10 :: dosSpecNorm l := by
  match l, h with
  | [], _ => rfl
  | b :: l, h =>
    have hb : b ≠ 10 := by simpa using h
    rw [dosSpecNorm.eq_def]
    split <;> simp_all

lemma dosSpecNorm_cons_ne (b : Nat) (l : List Nat) (h1 : b ≠ 13) (h2 : b ≠ 10) :
    dosSpecNorm (b :: l) = b :: dosSpecNorm l := by
  rw [dosSpecNorm.eq_def]
  split <;> simp_all

lemma wellPairedB_cons_ne (b : Nat) (l : List Nat) (h1 : b ≠ 13) (h2 : b ≠ 10) :
    wellPairedB (b :: l) = wellPairedB l := by
  rw [wellPairedB.eq_def]
  split <;> simp_all

lemma unixSpecNorm_append_no_cr (seg l : List Nat) (h : ∀ b ∈ seg, b ≠ 13) :
    unixSpecNorm (seg ++ l) = seg ++ unixSpecNorm l := by
  induction seg with
  | nil => rfl
  | cons b seg ih =>
    have hb : b ≠ 13 := h b (by simp)
    rw [List.cons_append, unixSpecNorm_cons_ne b _ hb,
      ih (fun x hx => h x (by simp [hx])), List.cons_append]

lemma unixSpecNorm_no_cr (s : List Nat) (h : ∀ b ∈ s, b ≠ 13) :
    unixSpecNorm s = s := by
  have := unixSpecNorm_append_no_cr s [] h
  simpa [unixSpecNorm] using this

lemma dosSpecNorm_append_no_nl (seg l : List Nat)
    (h : ∀ b ∈ seg, b ≠ 13 ∧ b ≠ 10) :
    dosSpecNorm (seg ++ l) = seg ++ dosSpecNorm l := by
  induction seg with
  | nil => rfl
  | cons b seg ih =>
    have hb := h b (by simp)
    rw [List.cons_append, dosSpecNorm_cons_ne b _ hb.1 hb.2,
      ih (fun x hx => h x (by simp [hx])), List.cons_append]

lemma dosSpecNorm_no_nl (s : List Nat) (h : ∀ b ∈ s, b ≠ 13 ∧ b ≠ 10) :
    dosSpecNorm s = s := by
  have := dosSpecNorm_append_no_nl s [] h
  simpa [dosSpecNorm] using this

lemma dosSpecNorm_append_wellPaired (seg l : List Nat)
    (h : wellPairedB seg = true) :
    dosSpecNorm (seg ++ l) = seg ++ dosSpecNorm l := by
  induction seg using wellPairedB.induct with
  | case1 => rfl
  | case2 rest ih =>
    simp only [wellPairedB] at h
    simp only [List.cons_append, dosSpecNorm, ih h, List.append_eq]
  | case3 rest hne => simp [wellPairedB] at h
  | case4 rest => simp [wellPairedB] at h
  | case5 b rest hp hb13 hb10 ih =>
    have hb13' : b ≠ 13 := fun hh => hb13 hh
    have hb10' : b ≠ 10 := fun hh => hb10 hh
    rw [wellPairedB_cons_ne b rest hb13' hb10'] at h
    rw [List.cons_append, dosSpecNorm_cons_ne b _ hb13' hb10', ih h,
      List.cons_append]

lemma dosSpecNorm_wellPaired_self (s : List Nat) (h : wellPairedB s = true) :
    dosSpecNorm s = s := by
  have := dosSpecNorm_append_wellPaired s [] h
  simpa [dosSpecNorm] using this

lemma wellPairedB_dosSpecNorm (s : List Nat) :
    wellPairedB (dosSpecNorm s) = true := by
  induction s using dosSpecNorm.induct with
  | case1 => rfl
  | case2 rest ih => simpa [dosSpecNorm, wellPairedB] using ih
  | case3 rest hne ih =>
    have h10 : rest.head? ≠ some 10 := by
      match rest, hne with
      | [], _ => simp
      | b :: r, hne =>
        have : b ≠ 10 := fun hh => by exact (hne r (by rw [hh])).elim
        simpa using this
    rw [dosSpecNorm_cr rest h10, wellPairedB]
    exact ih
  | case4 rest ih => simpa [dosSpecNorm, wellPairedB] using ih
  | case5 b rest hp hb13 hb10 ih =>
    have hb13' : b ≠ 13 := fun hh => hb13 hh
    have hb10' : b ≠ 10 := fun hh => hb10 hh
    rw [dosSpecNorm_cons_ne b _ hb13' hb10',
      wellPairedB_cons_ne b _ hb13' hb10']
    exact ih

lemma unixSpecNorm_no_cr_out (s : List Nat) : ∀ b ∈ unixSpecNorm s, b ≠ 13 := by
  induction s using unixSpecNorm.induct with
  | case1 => simp [unixSpecNorm]
  | case2 rest ih => simpa [unixSpecNorm] using ih
  | case3 rest hne ih =>
    have h10 : rest.head? ≠ some 10 := by
      match rest, hne with
      | [], _ => simp
      | b :: r, hne =>
        have : b ≠ 10 := fun hh => by exact (hne r (by rw [hh])).elim
        simpa using this
    rw [unixSpecNorm_cr rest h10]
    simpa using ih
  | case4 b rest hp hb13 ih =>
    have hb13' : b ≠ 13 := fun hh => hb13 hh
    rw [unixSpecNorm_cons_ne b _ hb13']
    simpa [hb13'] using ih

end NewlineNormalizer
namespace NewlineNormalizer

lemma fullyPaired_cons_pair (rest : List Nat) :
    fullyPaired (13 :: 10 :: rest) ↔ fullyPaired rest := by
  constructor
  · intro h i hi
    constructor
    · intro h13
      have h2 := (h (i + 1 + 1) (by simp; omega)).1
        (by simpa using h13)
      simp only [List.getD_cons_succ, List.length_cons] at h2
      exact ⟨by omega, h2.2⟩
    · intro h10
      have h2 := (h (i + 1 + 1) (by simp; omega)).2
        (by simpa using h10)
      rcases i with _ | j
      · -- rest starts with 10: contradiction with s.getD 1 = 13
        simp only [Nat.add_sub_cancel, List.getD_cons_succ,
          List.getD_cons_zero] at h2
        omega
      · simp only [Nat.add_sub_cancel, List.getD_cons_succ] at h2
        exact ⟨by omega, by simpa using h2.2⟩
  · intro h i hi
    rcases i with _ | (_ | j)
    · simp [List.getD_cons_zero]
    · simp [List.getD_cons_succ, List.getD_cons_zero]
    · simp only [List.length_cons] at hi
      have h2 := h j (by omega)
      simp only [List.getD_cons_succ, List.length_cons]
      constructor
      · intro h13
        have := h2.1 h13
        exact ⟨by omega, this.2⟩
      · intro h10
        have := h2.2 h10
        rcases j with _ | k
        · omega
        · refine ⟨by omega, ?_⟩
          have heq : k + 1 + 1 + 1 - 1 = k + 1 + 1 := rfl
          rw [heq]
          simpa using this.2

lemma fullyPaired_cons_other (b : Nat) (rest : List Nat)
    (hb13 : b ≠ 13) (hb10 : b ≠ 10) :
    fullyPaired (b :: rest) ↔ fullyPaired rest := by
  constructor
  · intro h i hi
    constructor
    · intro h13
      have h2 := (h (i + 1) (by simp; omega)).1 (by simpa using h13)
      simp only [List.getD_cons_succ, List.length_cons] at h2
      exact ⟨by omega, h2.2⟩
    · intro h10
      have h2 := (h (i + 1) (by simp; omega)).2 (by simpa using h10)
      rcases i with _ | j
      · simp only [Nat.add_sub_cancel, List.getD_cons_zero] at h2
        omega
      · simp only [Nat.add_sub_cancel, List.getD_cons_succ] at h2
        exact ⟨by omega, by simpa using h2.2⟩
  · intro h i hi
    rcases i with _ | j
    · simp only [List.getD_cons_zero]
      exact ⟨fun hh => absurd hh hb13, fun hh => absurd hh hb10⟩
    · simp only [List.length_cons] at hi
      have h2 := h j (by omega)
      simp only [List.getD_cons_succ, List.length_cons]
      constructor
      · intro h13
        have := h2.1 h13
        exact ⟨by omega, this.2⟩
      · intro h10
        have := h2.2 h10
        rcases j with _ | k
        · -- rest.getD 0 = 10 needs 0 < 0: contradiction inside `this`
          omega
        · refine ⟨by omega, ?_⟩
          have heq : k + 1 + 1 - 1 = k + 1 := rfl
          rw [heq]
          simpa using this.2

lemma not_fullyPaired_lf (rest : List Nat) : ¬ fullyPaired (10 :: rest) := by
  intro h
  have := (h 0 (by simp)).2 (by simp)
  omega

lemma not_fullyPaired_cr (rest : List Nat) (h10 : rest.head? ≠ some 10) :
    ¬ fullyPaired (13 :: rest) := by
  intro h
  have := (h 0 (by simp)).1 (by simp)
  rcases rest with _ | ⟨b, r⟩
  · simp at this
  · simp only [List.length_cons, List.getD_cons_succ, List.getD_cons_zero]
      at this
    exact h10 (by simp [this.2])

lemma wellPairedB_iff_fullyPaired (s : List Nat) :
    wellPairedB s = true ↔ fullyPaired s := by
  induction s using wellPairedB.induct with
  | case1 =>
    simp only [wellPairedB, true_iff]
    intro i hi
    simp at hi
  | case2 rest ih =>
    rw [wellPairedB, fullyPaired_cons_pair]
    exact ih
  | case3 rest hne =>
    have h10 : rest.head? ≠ some 10 := by
      match rest, hne with
      | [], _ => simp
      | b :: r, hne =>
        have : b ≠ 10 := fun hh => by exact (hne r (by rw [hh])).elim
        simpa using this
    constructor
    · intro h
      exfalso
      rw [wellPairedB.eq_def] at h
      split at h <;> simp_all
    · intro h
      exact absurd h (not_fullyPaired_cr rest h10)
  | case4 rest =>
    constructor
    · intro h
      rw [wellPairedB.eq_def] at h
      split at h <;> simp_all
    · intro h
      exact absurd h (not_fullyPaired_lf rest)
  | case5 b rest hp hb13 hb10 ih =>
    have hb13' : b ≠ 13 := fun hh => hb13 hh
    have hb10' : b ≠ 10 := fun hh => hb10 hh
    rw [wellPairedB_cons_ne b rest hb13' hb10',
      fullyPaired_cons_other b rest hb13' hb10']
    exact ih

end NewlineNormalizer
namespace NewlineNormalizer

lemma newlineCount_cr (l : List Nat) (h : l.head? ≠ some 10) :
    newlineCount (13 :: l) = 1 + newlineCount l := by
  match l, h with
  | [], _ => rfl
  | b :: l, h =>
    have hb : b ≠ 10 := by simpa using h
    rw [newlineCount.eq_def]
    split <;> simp_all

lemma newlineCount_cons_ne (b : Nat) (l : List Nat) (h1 : b ≠ 13)
    (h2 : b ≠ 10) : newlineCount (b :: l) = newlineCount l := by
  rw [newlineCount.eq_def]
  split <;> simp_all

lemma head?_ne_ten (rest : List Nat)
    (hne : ∀ (rest1 : List Nat), rest = 10 :: rest1 → False) :
    rest.head? ≠ some 10 := by
  match rest, hne with
  | [], _ => simp
  | b :: r, hne =>
    have : b ≠ 10 := fun hh => by exact (hne r (by rw [hh])).elim
    simpa using this

lemma count_ten_unixSpecNorm (s : List Nat) :
    (unixSpecNorm s).count 10 = newlineCount s := by
  induction s using unixSpecNorm.induct with
  | case1 => rfl
  | case2 rest ih =>
    simp [unixSpecNorm, newlineCount, List.count_cons, ih]
    omega
  | case3 rest hne ih =>
    have h10 := head?_ne_ten rest hne
    rw [unixSpecNorm_cr rest h10, newlineCount_cr rest h10]
    simp [List.count_cons, ih]
    omega
  | case4 b rest hp hb13 ih =>
    have hb13' : b ≠ 13 := fun hh => hb13 hh
    rw [unixSpecNorm_cons_ne b _ hb13']
    by_cases hb10 : b = 10
    · subst hb10
      rw [newlineCount.eq_def]
      simp only [List.count_cons, if_pos rfl]
      split
      all_goals simp_all
      all_goals omega
    · rw [newlineCount_cons_ne b _ hb13' hb10]
      simp only [List.count_cons, if_neg hb10]
      simpa [hb10] using ih

lemma newlineCount_dosSpecNorm (s : List Nat) :
    newlineCount (dosSpecNorm s) = newlineCount s := by
  induction s using dosSpecNorm.induct with
  | case1 => rfl
  | case2 rest ih => simpa [dosSpecNorm, newlineCount] using ih
  | case3 rest hne ih =>
    have h10 := head?_ne_ten rest hne
    rw [dosSpecNorm_cr rest h10, newlineCount, newlineCount_cr rest h10, ih]
  | case4 rest ih => simpa [dosSpecNorm, newlineCount] using ih
  | case5 b rest hp hb13 hb10 ih =>
    have hb13' : b ≠ 13 := fun hh => hb13 hh
    have hb10' : b ≠ 10 := fun hh => hb10 hh
    rw [dosSpecNorm_cons_ne b _ hb13' hb10',
      newlineCount_cons_ne b _ hb13' hb10',
      newlineCount_cons_ne b _ hb13' hb10', ih]

lemma unixSpecNorm_length (s : List Nat) :
    (unixSpecNorm s).length ≤ s.length ∧
      s.length ≤ 2 * (unixSpecNorm s).length := by
  induction s using unixSpecNorm.induct with
  | case1 => simp [unixSpecNorm]
  | case2 rest ih =>
    simp only [unixSpecNorm, List.length_cons] at ih ⊢
    omega
  | case3 rest hne ih =>
    rw [unixSpecNorm_cr rest (head?_ne_ten rest hne)]
    simp only [List.length_cons] at ih ⊢
    omega
  | case4 b rest hp hb13 ih =>
    rw [unixSpecNorm_cons_ne b _ (fun hh => hb13 hh)]
    simp only [List.length_cons] at ih ⊢
    omega

lemma dosSpecNorm_length (s : List Nat) :
    s.length ≤ (dosSpecNorm s).length ∧
      (dosSpecNorm s).length ≤ 2 * s.length := by
  induction s using dosSpecNorm.induct with
  | case1 => simp [dosSpecNorm]
  | case2 rest ih =>
    simp only [dosSpecNorm, List.length_cons] at ih ⊢
    omega
  | case3 rest hne ih =>
    rw [dosSpecNorm_cr rest (head?_ne_ten rest hne)]
    simp only [List.length_cons] at ih ⊢
    omega
  | case4 rest ih =>
    simp only [dosSpecNorm, List.length_cons] at ih ⊢
    omega
  | case5 b rest hp hb13 hb10 ih =>
    rw [dosSpecNorm_cons_ne b _ (fun hh => hb13 hh) (fun hh => hb10 hh)]
    simp only [List.length_cons] at ih ⊢
    omega

lemma unixSpecNorm_dosSpecNorm (s : List Nat) :
    unixSpecNorm (dosSpecNorm s) = unixSpecNorm s := by
  induction s using dosSpecNorm.induct with
  | case1 => rfl
  | case2 rest ih => simpa [dosSpecNorm, unixSpecNorm] using ih
  | case3 rest hne ih =>
    have h10 := head?_ne_ten rest hne
    rw [dosSpecNorm_cr rest h10, unixSpecNorm, unixSpecNorm_cr rest h10, ih]
  | case4 rest ih => simpa [dosSpecNorm, unixSpecNorm] using ih
  | case5 b rest hp hb13 hb10 ih =>
    have hb13' : b ≠ 13 := fun hh => hb13 hh
    have hb10' : b ≠ 10 := fun hh => hb10 hh
    rw [dosSpecNorm_cons_ne b _ hb13' hb10',
      unixSpecNorm_cons_ne b _ hb13', unixSpecNorm_cons_ne b _ hb13', ih]

end NewlineNormalizer
namespace NewlineNormalizer

lemma utf8_unixSpecNorm {s : List Nat} (h : Utf8Chunks s) :
    Utf8Chunks (unixSpecNorm s) := by
  induction h with
  | nil => exact Utf8Chunks.nil
  | @ascii b rest hb hrest ih =>
    by_cases hb13 : b = 13
    · subst hb13
      match rest, hrest, ih with
      | [], _, _ => exact Utf8Chunks.ascii (by omega) Utf8Chunks.nil
      | c :: rest2, hrest, ih =>
        by_cases hc : c = 10
        · subst hc
          rw [unixSpecNorm_cons_ne 10 rest2 (by omega)] at ih
          simpa [unixSpecNorm] using ih
        · rw [unixSpecNorm_cr (c :: rest2) (by simpa using hc)]
          exact Utf8Chunks.ascii (by omega) ih
    · rw [unixSpecNorm_cons_ne b rest hb13]
      exact Utf8Chunks.ascii hb ih
  | @two b c1 rest h1 h2 hc1 hrest ih =>
    rw [unixSpecNorm_cons_ne b _ (by omega),
      unixSpecNorm_cons_ne c1 _ (by rcases hc1 with ⟨h, _⟩; omega)]
    exact Utf8Chunks.two h1 h2 hc1 ih
  | @threeE0 c1 c2 rest h1 h2 hc2 hrest ih =>
    rw [unixSpecNorm_cons_ne 0xE0 _ (by omega),
      unixSpecNorm_cons_ne c1 _ (by omega),
      unixSpecNorm_cons_ne c2 _ (by rcases hc2 with ⟨h, _⟩; omega)]
    exact Utf8Chunks.threeE0 h1 h2 hc2 ih
  | @threeMid b c1 c2 rest h1 h2 hc1 hc2 hrest ih =>
    rw [unixSpecNorm_cons_ne b _ (by omega),
      unixSpecNorm_cons_ne c1 _ (by rcases hc1 with ⟨h, _⟩; omega),
      unixSpecNorm_cons_ne c2 _ (by rcases hc2 with ⟨h, _⟩; omega)]
    exact Utf8Chunks.threeMid h1 h2 hc1 hc2 ih
  | @threeED c1 c2 rest h1 h2 hc2 hrest ih =>
    rw [unixSpecNorm_cons_ne 0xED _ (by omega),
      unixSpecNorm_cons_ne c1 _ (by omega),
      unixSpecNorm_cons_ne c2 _ (by rcases hc2 with ⟨h, _⟩; omega)]
    exact Utf8Chunks.threeED h1 h2 hc2 ih
  | @threeHi b c1 c2 rest h1 h2 hc1 hc2 hrest ih =>
    rw [unixSpecNorm_cons_ne b _ (by omega),
      unixSpecNorm_cons_ne c1 _ (by rcases hc1 with ⟨h, _⟩; omega),
      unixSpecNorm_cons_ne c2 _ (by rcases hc2 with ⟨h, _⟩; omega)]
    exact Utf8Chunks.threeHi h1 h2 hc1 hc2 ih
  | @fourF0 c1 c2 c3 rest h1 h2 hc2 hc3 hrest ih =>
    rw [unixSpecNorm_cons_ne 0xF0 _ (by omega),
      unixSpecNorm_cons_ne c1 _ (by omega),
      unixSpecNorm_cons_ne c2 _ (by rcases hc2 with ⟨h, _⟩; omega),
      unixSpecNorm_cons_ne c3 _ (by rcases hc3 with ⟨h, _⟩; omega)]
    exact Utf8Chunks.fourF0 h1 h2 hc2 hc3 ih
  | @fourMid b c1 c2 c3 rest h1 h2 hc1 hc2 hc3 hrest ih =>
    rw [unixSpecNorm_cons_ne b _ (by omega),
      unixSpecNorm_cons_ne c1 _ (by rcases hc1 with ⟨h, _⟩; omega),
      unixSpecNorm_cons_ne c2 _ (by rcases hc2 with ⟨h, _⟩; omega),
      unixSpecNorm_cons_ne c3 _ (by rcases hc3 with ⟨h, _⟩; omega)]
    exact Utf8Chunks.fourMid h1 h2 hc1 hc2 hc3 ih
  | @fourF4 c1 c2 c3 rest h1 h2 hc2 hc3 hrest ih =>
    rw [unixSpecNorm_cons_ne 0xF4 _ (by omega),
      unixSpecNorm_cons_ne c1 _ (by omega),
      unixSpecNorm_cons_ne c2 _ (by rcases hc2 with ⟨h, _⟩; omega),
      unixSpecNorm_cons_ne c3 _ (by rcases hc3 with ⟨h, _⟩; omega)]
    exact Utf8Chunks.fourF4 h1 h2 hc2 hc3 ih

lemma utf8_dosSpecNorm {s : List Nat} (h : Utf8Chunks s) :
    Utf8Chunks (dosSpecNorm s) := by
  induction h with
  | nil => exact Utf8Chunks.nil
  | @ascii b rest hb hrest ih =>
    by_cases hb13 : b = 13
    · subst hb13
      match rest, hrest, ih with
      | [], _, _ =>
        exact Utf8Chunks.ascii (by omega)
          (Utf8Chunks.ascii (by omega) Utf8Chunks.nil)
      | c :: rest2, hrest, ih =>
        by_cases hc : c = 10
        · subst hc
          have heq : dosSpecNorm (10 :: rest2) = 13 :: 10 :: dosSpecNorm rest2 :=
            rfl
          rw [heq] at ih
          simpa [dosSpecNorm] using ih
        · rw [dosSpecNorm_cr (c :: rest2) (by simpa using hc)]
          exact Utf8Chunks.ascii (by omega) (Utf8Chunks.ascii (by omega) ih)
    · by_cases hb10 : b = 10
      · subst hb10
        have heq : dosSpecNorm (10 :: rest) = 13 :: 10 :: dosSpecNorm rest :=
          rfl
        rw [heq]
        exact Utf8Chunks.ascii (by omega) (Utf8Chunks.ascii (by omega) ih)
      · rw [dosSpecNorm_cons_ne b rest hb13 hb10]
        exact Utf8Chunks.ascii hb ih
  | @two b c1 rest h1 h2 hc1 hrest ih =>
    rw [dosSpecNorm_cons_ne b _ (by omega) (by omega),
      dosSpecNorm_cons_ne c1 _ (by rcases hc1 with ⟨h, _⟩; omega)
        (by rcases hc1 with ⟨h, _⟩; omega)]
    exact Utf8Chunks.two h1 h2 hc1 ih
  | @threeE0 c1 c2 rest h1 h2 hc2 hrest ih =>
    rw [dosSpecNorm_cons_ne 0xE0 _ (by omega) (by omega),
      dosSpecNorm_cons_ne c1 _ (by omega) (by omega),
      dosSpecNorm_cons_ne c2 _ (by rcases hc2 with ⟨h, _⟩; omega)
        (by rcases hc2 with ⟨h, _⟩; omega)]
    exact Utf8Chunks.threeE0 h1 h2 hc2 ih
  | @threeMid b c1 c2 rest h1 h2 hc1 hc2 hrest ih =>
    rw [dosSpecNorm_cons_ne b _ (by omega) (by omega),
      dosSpecNorm_cons_ne c1 _ (by rcases hc1 with ⟨h, _⟩; omega)
        (by rcases hc1 with ⟨h, _⟩; omega),
      dosSpecNorm_cons_ne c2 _ (by rcases hc2 with ⟨h, _⟩; omega)
        (by rcases hc2 with ⟨h, _⟩; omega)]
    exact Utf8Chunks.threeMid h1 h2 hc1 hc2 ih
  | @threeED c1 c2 rest h1 h2 hc2 hrest ih =>
    rw [dosSpecNorm_cons_ne 0xED _ (by omega) (by omega),
      dosSpecNorm_cons_ne c1 _ (by omega) (by omega),
      dosSpecNorm_cons_ne c2 _ (by rcases hc2 with ⟨h, _⟩; omega)
        (by rcases hc2 with ⟨h, _⟩; omega)]
    exact Utf8Chunks.threeED h1 h2 hc2 ih
  | @threeHi b c1 c2 rest h1 h2 hc1 hc2 hrest ih =>
    rw [dosSpecNorm_cons_ne b _ (by omega) (by omega),
      dosSpecNorm_cons_ne c1 _ (by rcases hc1 with ⟨h, _⟩; omega)
        (by rcases hc1 with ⟨h, _⟩; omega),
      dosSpecNorm_cons_ne c2 _ (by rcases hc2 with ⟨h, _⟩; omega)
        (by rcases hc2 with ⟨h, _⟩; omega)]
    exact Utf8Chunks.threeHi h1 h2 hc1 hc2 ih
  | @fourF0 c1 c2 c3 rest h1 h2 hc2 hc3 hrest ih =>
    rw [dosSpecNorm_cons_ne 0xF0 _ (by omega) (by omega),
      dosSpecNorm_cons_ne c1 _ (by omega) (by omega),
      dosSpecNorm_cons_ne c2 _ (by rcases hc2 with ⟨h, _⟩; omega)
        (by rcases hc2 with ⟨h, _⟩; omega),
      dosSpecNorm_cons_ne c3 _ (by rcases hc3 with ⟨h, _⟩; omega)
        (by rcases hc3 with ⟨h, _⟩; omega)]
    exact Utf8Chunks.fourF0 h1 h2 hc2 hc3 ih
  | @fourMid b c1 c2 c3 rest h1 h2 hc1 hc2 hc3 hrest ih =>
    rw [dosSpecNorm_cons_ne b _ (by omega) (by omega),
      dosSpecNorm_cons_ne c1 _ (by rcases hc1 with ⟨h, _⟩; omega)
        (by rcases hc1 with ⟨h, _⟩; omega),
      dosSpecNorm_cons_ne c2 _ (by rcases hc2 with ⟨h, _⟩; omega)
        (by rcases hc2 with ⟨h, _⟩; omega),
      dosSpecNorm_cons_ne c3 _ (by rcases hc3 with ⟨h, _⟩; omega)
        (by rcases hc3 with ⟨h, _⟩; omega)]
    exact Utf8Chunks.fourMid h1 h2 hc1 hc2 hc3 ih
  | @fourF4 c1 c2 c3 rest h1 h2 hc2 hc3 hrest ih =>
    rw [dosSpecNorm_cons_ne 0xF4 _ (by omega) (by omega),
      dosSpecNorm_cons_ne c1 _ (by omega) (by omega),
      dosSpecNorm_cons_ne c2 _ (by rcases hc2 with ⟨h, _⟩; omega)
        (by rcases hc2 with ⟨h, _⟩; omega),
      dosSpecNorm_cons_ne c3 _ (by rcases hc3 with ⟨h, _⟩; omega)
        (by rcases hc3 with ⟨h, _⟩; omega)]
    exact Utf8Chunks.fourF4 h1 h2 hc2 hc3 ih

end NewlineNormalizer
namespace NewlineNormalizer

lemma mem_memchr_iter (b : Nat) (s : List Nat) (i : Nat) :
    i ∈ memchr_iter b s ↔ i < s.length ∧ s.getD i 0 = b := by
  simp [memchr_iter, List.mem_filter, List.mem_range]

lemma pairwise_memchr_iter (b : Nat) (s : List Nat) :
    List.Pairwise (· < ·) (memchr_iter b s) :=
  List.Pairwise.filter _ (List.pairwise_lt_range _)

lemma mem_memchr2_iter (b1 b2 : Nat) (s : List Nat) (i : Nat) :
    i ∈ memchr2_iter b1 b2 s ↔
      i < s.length ∧ (s.getD i 0 = b1 ∨ s.getD i 0 = b2) := by
  simp [memchr2_iter, List.mem_filter, List.mem_range]

lemma pairwise_memchr2_iter (b1 b2 : Nat) (s : List Nat) :
    List.Pairwise (· < ·) (memchr2_iter b1 b2 s) :=
  List.Pairwise.filter _ (List.pairwise_lt_range _)

lemma sliceIndex_eq (s : List Nat) (a b : Nat) (h1 : a ≤ b)
    (h2 : b ≤ s.length) :
    sliceIndex s a b = some ((s.drop a).take (b - a)) := by
  simp [sliceIndex, h1, h2]

lemma drop_eq_take_append (s : List Nat) (a b : Nat) (h1 : a ≤ b)
    (_h2 : b ≤ s.length) :
    s.drop a = (s.drop a).take (b - a) ++ s.drop b := by
  conv_lhs => rw [← List.take_append_drop (b - a) (s.drop a)]
  rw [List.drop_drop]
  congr 2
  omega

lemma drop_eq_cons (s : List Nat) (c : Nat) (h : c < s.length) :
    s.drop c = s.getD c 0 :: s.drop (c + 1) := by
  rw [List.drop_eq_getElem_cons h]
  congr 1
  simp [List.getD_eq_getElem?_getD, List.getElem?_eq_getElem h]

lemma get?_eq_some_getD (s : List Nat) (i : Nat) (h : i < s.length) :
    s.get? i = some (s.getD i 0) := by
  simp [List.get?_eq_getElem?, List.getElem?_eq_getElem h,
    List.getD_eq_getElem?_getD]

lemma mem_drop_getD (s : List Nat) (a b : Nat) (hb : b ∈ s.drop a) :
    ∃ i, a ≤ i ∧ i < s.length ∧ s.getD i 0 = b := by
  obtain ⟨j, hj, hget⟩ := List.mem_iff_getElem.mp hb
  rw [List.length_drop] at hj
  have hlt : a + j < s.length := by omega
  refine ⟨a + j, by omega, hlt, ?_⟩
  rw [List.getD_eq_getElem?_getD, List.getElem?_eq_getElem hlt]
  simpa [List.getElem_drop] using hget

lemma seg_mem_getD (s : List Nat) (a b x : Nat)
    (hx : x ∈ (s.drop a).take (b - a)) (hb : b ≤ s.length) :
    ∃ i, a ≤ i ∧ i < b ∧ s.getD i 0 = x := by
  rw [← List.drop_take] at hx
  obtain ⟨i, hi1, hi2, hi3⟩ := mem_drop_getD (s.take b) a x hx
  rw [List.length_take] at hi2
  have hib : i < b := by omega
  have hilen : i < s.length := by omega
  refine ⟨i, hi1, hib, ?_⟩
  rw [← hi3, List.getD_eq_getElem?_getD, List.getD_eq_getElem?_getD,
    List.getElem?_take_of_lt hib]

end NewlineNormalizer
namespace NewlineNormalizer

lemma unixLoop_eq (s : List Nat) (iter : List Nat) (out : List Nat)
    (cr : Nat) (pos : Nat)
    (hsort : List.Pairwise (· < ·) iter)
    (hmem : ∀ i, i ∈ iter ↔ cr < i ∧ i < s.length ∧ s.getD i 0 = 13)
    (hpos : pos ≤ cr) (hcr : cr < s.length) (hcr13 : s.getD cr 0 = 13)
    (hspan : ∀ i, pos ≤ i → i < cr → s.getD i 0 ≠ 13) :
    unixLoop s (s.length - 1) out cr iter pos =
      some (out ++ unixSpecNorm (s.drop pos)) := by
  induction iter generalizing out cr pos with
  | nil =>
    -- one rewrite step, then the tail copy
    rw [unixLoop, sliceIndex_eq s pos cr hpos (le_of_lt hcr)]
    dsimp only
    have hseg : ∀ x ∈ (s.drop pos).take (cr - pos), x ≠ 13 := by
      intro x hx
      obtain ⟨i, hi1, hi2, hi3⟩ := seg_mem_getD s pos cr x hx (le_of_lt hcr)
      exact hi3 ▸ hspan i hi1 hi2
    have hsplit : unixSpecNorm (s.drop pos) =
        (s.drop pos).take (cr - pos) ++ unixSpecNorm (s.drop cr) := by
      conv_lhs => rw [drop_eq_take_append s pos cr hpos (le_of_lt hcr)]
      exact unixSpecNorm_append_no_cr _ _ hseg
    have hdropcr : s.drop cr = 13 :: s.drop (cr + 1) := by
      rw [drop_eq_cons s cr hcr, hcr13]
    have hnotail : ∀ p, cr < p → ∀ x ∈ s.drop p, x ≠ 13 := by
      intro p hp x hx
      obtain ⟨i, hi1, hi2, hi3⟩ := mem_drop_getD s p x hx
      intro hx13
      have : i ∈ ([] : List Nat) := (hmem i).mpr ⟨by omega, hi2, hi3 ▸ hx13⟩
      simp at this
    by_cases hend : cr < s.length - 1
    · rw [if_pos hend, get?_eq_some_getD s (cr + 1) (by omega)]
      dsimp only
      by_cases h10 : s.getD (cr + 1) 0 = 10
      · rw [if_pos h10, show cr + 1 + 1 = cr + 2 from rfl]
        have hdrop1 : s.drop (cr + 1) = 10 :: s.drop (cr + 2) := by
          rw [drop_eq_cons s (cr + 1) (by omega), h10]
        have hnorm : unixSpecNorm (s.drop cr) =
            10 :: unixSpecNorm (s.drop (cr + 2)) := by
          rw [hdropcr, hdrop1, unixSpecNorm]
        have htail : unixSpecNorm (s.drop (cr + 2)) = s.drop (cr + 2) :=
          unixSpecNorm_no_cr _ (hnotail (cr + 2) (by omega))
        by_cases hlast : cr + 2 < s.length
        · rw [if_pos hlast,
            sliceIndex_eq s (cr + 2) s.length (by omega) le_rfl]
          simp only [Nat.sub_zero, List.take_length, Option.some.injEq]
          rw [hsplit, hnorm, htail]
          have : (s.drop (cr + 2)).take (s.length - (cr + 2)) =
              s.drop (cr + 2) := by
            conv_lhs => rw [← List.length_drop (cr + 2) s]
            exact List.take_length _
          rw [this]
          simp
        · rw [if_neg hlast]
          have hdrop2 : s.drop (cr + 2) = [] := by
            apply List.drop_eq_nil_of_le
            omega
          rw [hsplit, hnorm, htail, hdrop2]
          simp
      · rw [if_neg h10]
        have hnorm : unixSpecNorm (s.drop cr) =
            10 :: unixSpecNorm (s.drop (cr + 1)) := by
          rw [hdropcr]
          refine unixSpecNorm_cr _ ?_
          rw [List.head?_drop, List.getElem?_eq_getElem (by omega : cr + 1 < s.length)]
          intro hcon
          apply h10
          rw [List.getD_eq_getElem?_getD,
            List.getElem?_eq_getElem (by omega : cr + 1 < s.length)]
          simpa using hcon
        have htail : unixSpecNorm (s.drop (cr + 1)) = s.drop (cr + 1) :=
          unixSpecNorm_no_cr _ (hnotail (cr + 1) (by omega))
        rw [if_pos (by omega : cr + 1 < s.length),
          sliceIndex_eq s (cr + 1) s.length (by omega) le_rfl]
        have : (s.drop (cr + 1)).take (s.length - (cr + 1)) =
            s.drop (cr + 1) := by
          conv_lhs => rw [← List.length_drop (cr + 1) s]
          exact List.take_length _
        rw [this, hsplit, hnorm, htail]
        simp
    · -- cr is the last position
      rw [if_neg hend]
      dsimp only
      have hcrlast : cr + 1 = s.length := by omega
      have hdrop1 : s.drop (cr + 1) = [] := by
        apply List.drop_eq_nil_of_le
        omega
      have hnorm : unixSpecNorm (s.drop cr) = [10] := by
        rw [hdropcr, hdrop1]
        rfl
      rw [if_neg (by omega : ¬ cr + 1 < s.length)]
      rw [hsplit, hnorm]
      simp
  | cons next rest ih =>
    rw [unixLoop, sliceIndex_eq s pos cr hpos (le_of_lt hcr)]
    dsimp only
    have hseg : ∀ x ∈ (s.drop pos).take (cr - pos), x ≠ 13 := by
      intro x hx
      obtain ⟨i, hi1, hi2, hi3⟩ := seg_mem_getD s pos cr x hx (le_of_lt hcr)
      exact hi3 ▸ hspan i hi1 hi2
    have hsplit : unixSpecNorm (s.drop pos) =
        (s.drop pos).take (cr - pos) ++ unixSpecNorm (s.drop cr) := by
      conv_lhs => rw [drop_eq_take_append s pos cr hpos (le_of_lt hcr)]
      exact unixSpecNorm_append_no_cr _ _ hseg
    have hdropcr : s.drop cr = 13 :: s.drop (cr + 1) := by
      rw [drop_eq_cons s cr hcr, hcr13]
    have hnext : cr < next ∧ next < s.length ∧ s.getD next 0 = 13 :=
      (hmem next).mp (by simp)
    have hsort' : List.Pairwise (· < ·) rest := hsort.of_cons
    have hnextlt : ∀ i ∈ rest, next < i := by
      intro i hi
      exact List.rel_of_pairwise_cons hsort hi
    have hmem' : ∀ i, i ∈ rest ↔ next < i ∧ i < s.length ∧ s.getD i 0 = 13 := by
      intro i
      constructor
      · intro hi
        have h1 := (hmem i).mp (by simp [hi])
        exact ⟨hnextlt i hi, h1.2.1, h1.2.2⟩
      · intro ⟨h1, h2, h3⟩
        have : i ∈ next :: rest := (hmem i).mpr ⟨by omega, h2, h3⟩
        rcases List.mem_cons.mp this with heq | hi
        · omega
        · assumption
    have hspan' : ∀ p, cr + 1 ≤ p → ∀ i, p ≤ i → i < next → s.getD i 0 ≠ 13 := by
      intro p hp i hpi hinext hi13
      have : i ∈ next :: rest := (hmem i).mpr ⟨by omega, by omega, hi13⟩
      rcases List.mem_cons.mp this with heq | hi
      · omega
      · exact absurd (hnextlt i hi) (by omega)
    by_cases hend : cr < s.length - 1
    · rw [if_pos hend, get?_eq_some_getD s (cr + 1) (by omega)]
      dsimp only
      by_cases h10 : s.getD (cr + 1) 0 = 10
      · rw [if_pos h10, show cr + 1 + 1 = cr + 2 from rfl]
        have hdrop1 : s.drop (cr + 1) = 10 :: s.drop (cr + 2) := by
          rw [drop_eq_cons s (cr + 1) (by omega), h10]
        have hnorm : unixSpecNorm (s.drop cr) =
            10 :: unixSpecNorm (s.drop (cr + 2)) := by
          rw [hdropcr, hdrop1, unixSpecNorm]
        have hposnext : cr + 2 ≤ next := by
          rcases Nat.lt_or_ge next (cr + 2) with hlt | hge
          · exfalso
            have : next = cr + 1 := by omega
            rw [this] at hnext
            omega
          · exact hge
        rw [ih (out ++ (s.drop pos).take (cr - pos) ++ [10]) next (cr + 2)
          hsort' hmem' hposnext hnext.2.1 hnext.2.2
          (hspan' (cr + 2) (by omega))]
        rw [hsplit, hnorm]
        simp
      · rw [if_neg h10]
        have hnorm : unixSpecNorm (s.drop cr) =
            10 :: unixSpecNorm (s.drop (cr + 1)) := by
          rw [hdropcr]
          refine unixSpecNorm_cr _ ?_
          rw [List.head?_drop, List.getElem?_eq_getElem (by omega : cr + 1 < s.length)]
          intro hcon
          apply h10
          rw [List.getD_eq_getElem?_getD,
            List.getElem?_eq_getElem (by omega : cr + 1 < s.length)]
          simpa using hcon
        rw [ih (out ++ (s.drop pos).take (cr - pos) ++ [10]) next (cr + 1)
          hsort' hmem' (by omega) hnext.2.1 hnext.2.2
          (hspan' (cr + 1) (by omega))]
        rw [hsplit, hnorm]
        simp
    · -- cr is the last position: next ∈ iter would exceed the length
      exfalso
      omega

end NewlineNormalizer
namespace NewlineNormalizer

lemma mem_iff_exists_getD (s : List Nat) (b : Nat) :
    b ∈ s ↔ ∃ i, i < s.length ∧ s.getD i 0 = b := by
  rw [List.mem_iff_getElem]
  constructor
  · rintro ⟨n, h, rfl⟩
    exact ⟨n, h, by rw [List.getD_eq_getElem?_getD, List.getElem?_eq_getElem h]; rfl⟩
  · rintro ⟨i, h, hget⟩
    refine ⟨i, h, ?_⟩
    rw [List.getD_eq_getElem?_getD, List.getElem?_eq_getElem h] at hget
    simpa using hget

lemma memchr_iter_eq_nil (b : Nat) (s : List Nat) :
    memchr_iter b s = [] ↔ b ∉ s := by
  rw [List.eq_nil_iff_forall_not_mem]
  constructor
  · intro h hb
    obtain ⟨i, hi, hget⟩ := (mem_iff_exists_getD s b).mp hb
    exact h i ((mem_memchr_iter b s i).mpr ⟨hi, hget⟩)
  · intro h i hi
    rw [mem_memchr_iter] at hi
    exact h ((mem_iff_exists_getD s b).mpr ⟨i, hi.1, hi.2⟩)

lemma to_unix_borrowed (s : List Nat) (h : 13 ∉ s) :
    to_unix_newlines s = some (Cow.borrowed s) := by
  rw [to_unix_newlines]
  rw [(memchr_iter_eq_nil 13 s).mpr h]

lemma to_unix_owned (s : List Nat) (h : 13 ∈ s) :
    to_unix_newlines s = some (Cow.owned (unixSpecNorm s)) := by
  rw [to_unix_newlines]
  rcases hiter : memchr_iter 13 s with _ | ⟨cr, rest⟩
  · exact absurd ((memchr_iter_eq_nil 13 s).mp hiter) (by simp [h])
  · have hpw : List.Pairwise (· < ·) (cr :: rest) := by
      rw [← hiter]
      exact pairwise_memchr_iter 13 s
    have hcr : cr < s.length ∧ s.getD cr 0 = 13 := by
      have : cr ∈ memchr_iter 13 s := by
        rw [hiter]
        simp
      exact (mem_memchr_iter 13 s cr).mp this
    have hmem : ∀ i, i ∈ rest ↔ cr < i ∧ i < s.length ∧ s.getD i 0 = 13 := by
      intro i
      constructor
      · intro hi
        have h1 : i ∈ memchr_iter 13 s := by
          rw [hiter]
          simp [hi]
        have h2 := (mem_memchr_iter 13 s i).mp h1
        exact ⟨List.rel_of_pairwise_cons hpw hi, h2.1, h2.2⟩
      · intro ⟨h1, h2, h3⟩
        have : i ∈ cr :: rest := by
          rw [← hiter]
          exact (mem_memchr_iter 13 s i).mpr ⟨h2, h3⟩
        rcases List.mem_cons.mp this with heq | hi
        · omega
        · assumption
    have hspan : ∀ i, 0 ≤ i → i < cr → s.getD i 0 ≠ 13 := by
      intro i _ hicr hi13
      have : i ∈ cr :: rest := by
        rw [← hiter]
        exact (mem_memchr_iter 13 s i).mpr ⟨by omega, hi13⟩
      rcases List.mem_cons.mp this with heq | hi
      · omega
      · exact absurd (List.rel_of_pairwise_cons hpw hi) (by omega)
    dsimp only
    rw [unixLoop_eq s rest [] cr 0 hpw.of_cons hmem (by omega) hcr.1 hcr.2
      hspan]
    simp

lemma to_unix_bytes (s : List Nat) :
    ∃ c, to_unix_newlines s = some c ∧ c.bytes = unixSpecNorm s := by
  by_cases h : 13 ∈ s
  · exact ⟨_, to_unix_owned s h, rfl⟩
  · refine ⟨_, to_unix_borrowed s h, ?_⟩
    show s = unixSpecNorm s
    exact (unixSpecNorm_no_cr s (fun b hb hb13 => h (hb13 ▸ hb))).symm

end NewlineNormalizer
namespace NewlineNormalizer

lemma dosSpecNorm_lf (l : List Nat) :
    dosSpecNorm (10 :: l) = 13 :: 10 :: dosSpecNorm l := rfl

lemma dosPairedAt_eq (s : List Nat) (m : Nat) (h : m < s.length) :
    dosPairedAt s (s.length - 1) m = some (decide (PairedAt s m)) := by
  rw [dosPairedAt, get?_eq_some_getD s m h]
  dsimp only
  by_cases h13 : s.getD m 0 = 13
  · rw [if_pos h13]
    by_cases hend : m < s.length - 1
    · rw [if_pos hend, get?_eq_some_getD s (m + 1) (by omega)]
      dsimp only
      congr 1
      have hiff : PairedAt s m ↔ s.getD (m + 1) 0 = 10 := by
        unfold PairedAt
        constructor
        · rintro (⟨_, _, h2⟩ | ⟨h1, _, _⟩)
          · exact h2
          · omega
        · intro h2
          exact Or.inl ⟨h13, by omega, h2⟩
      simp [hiff]
    · rw [if_neg hend]
      congr 1
      have hiff : ¬ PairedAt s m := by
        unfold PairedAt
        rintro (⟨_, h2, _⟩ | ⟨h1, _, _⟩) <;> omega
      simp [hiff]
  · rw [if_neg h13]
    by_cases h10 : s.getD m 0 = 10
    · rw [if_pos h10]
      by_cases hpos : 0 < m
      · rw [if_pos hpos, get?_eq_some_getD s (m - 1) (by omega)]
        dsimp only
        congr 1
        have hiff : PairedAt s m ↔ s.getD (m - 1) 0 = 13 := by
          unfold PairedAt
          constructor
          · rintro (⟨h1, _, _⟩ | ⟨_, _, h2⟩)
            · omega
            · exact h2
          · intro h2
            exact Or.inr ⟨h10, hpos, h2⟩
        simp [hiff]
      · rw [if_neg hpos]
        congr 1
        have hiff : ¬ PairedAt s m := by
          unfold PairedAt
          rintro (⟨h1, _, _⟩ | ⟨_, h1, _⟩) <;> omega
        simp [hiff]
    · rw [if_neg h10]
      congr 1
      have hiff : ¬ PairedAt s m := by
        unfold PairedAt
        rintro (⟨h1, _, _⟩ | ⟨h1, _, _⟩) <;> omega
      simp [hiff]

lemma dosFindUnpaired_spec (s : List Nat) (iter : List Nat)
    (hlen : ∀ i ∈ iter, i < s.length) :
    (dosFindUnpaired s (s.length - 1) iter = some none ∧
        ∀ m ∈ iter, PairedAt s m) ∨
      ∃ pre crlf rest, iter = pre ++ crlf :: rest ∧
        dosFindUnpaired s (s.length - 1) iter = some (some (crlf, rest)) ∧
        (∀ m ∈ pre, PairedAt s m) ∧ ¬ PairedAt s crlf := by
  induction iter with
  | nil =>
    left
    exact ⟨rfl, by simp⟩
  | cons m iter ih =>
    have hm : m < s.length := hlen m (by simp)
    have hrec := dosPairedAt_eq s m hm
    by_cases hp : PairedAt s m
    · rcases ih (fun i hi => hlen i (by simp [hi])) with ⟨heq, hall⟩ |
        ⟨pre, crlf, rest, hsplit, heq, hpre, hcrlf⟩
      · left
        refine ⟨?_, ?_⟩
        · rw [dosFindUnpaired, hrec]
          simp only [hp, decide_True]
          exact heq
        · intro x hx
          rcases List.mem_cons.mp hx with rfl | hx
          · exact hp
          · exact hall x hx
      · right
        refine ⟨m :: pre, crlf, rest, by simp [hsplit], ?_, ?_, hcrlf⟩
        · rw [dosFindUnpaired, hrec]
          simp only [hp, decide_True]
          exact heq
        · intro x hx
          rcases List.mem_cons.mp hx with rfl | hx
          · exact hp
          · exact hpre x hx
    · right
      refine ⟨[], m, iter, by simp, ?_, by simp, hp⟩
      rw [dosFindUnpaired, hrec]
      simp only [hp, decide_False]

lemma dos_span_split (s : List Nat) (a b : Nat) (ha : a ≤ b)
    (hb : b ≤ s.length)
    (hspan : ∀ i, a ≤ i → i < b → ¬(s.getD i 0 = 10 ∨ s.getD i 0 = 13)) :
    dosSpecNorm (s.drop a) = (s.drop a).take (b - a) ++ dosSpecNorm (s.drop b) := by
  conv_lhs => rw [drop_eq_take_append s a b ha hb]
  refine dosSpecNorm_append_no_nl _ _ ?_
  intro x hx
  obtain ⟨i, hi1, hi2, hi3⟩ := seg_mem_getD s a b x hx hb
  have := hspan i hi1 hi2
  constructor
  · intro hx13
    exact this (Or.inr (hi3 ▸ hx13))
  · intro hx10
    exact this (Or.inl (hi3 ▸ hx10))

lemma dos_tail_self (s : List Nat) (p : Nat)
    (hspan : ∀ i, p ≤ i → i < s.length → ¬(s.getD i 0 = 10 ∨ s.getD i 0 = 13)) :
    dosSpecNorm (s.drop p) = s.drop p := by
  refine dosSpecNorm_no_nl _ ?_
  intro x hx
  obtain ⟨i, hi1, hi2, hi3⟩ := mem_drop_getD s p x hx
  have := hspan i hi1 hi2
  constructor
  · intro hx13
    exact this (Or.inr (hi3 ▸ hx13))
  · intro hx10
    exact this (Or.inl (hi3 ▸ hx10))

lemma iter_step (s : List Nat) (crlf next : Nat) (rest : List Nat)
    (hsort : List.Pairwise (· < ·) (next :: rest))
    (hmem : ∀ i, i ∈ next :: rest ↔ crlf < i ∧ i < s.length ∧
      (s.getD i 0 = 10 ∨ s.getD i 0 = 13)) :
    (∀ i, i ∈ rest ↔ next < i ∧ i < s.length ∧
      (s.getD i 0 = 10 ∨ s.getD i 0 = 13)) ∧
    (∀ p, crlf < p → ∀ i, p ≤ i → i < next →
      ¬(s.getD i 0 = 10 ∨ s.getD i 0 = 13)) ∧
    crlf < next ∧ next < s.length ∧
      (s.getD next 0 = 10 ∨ s.getD next 0 = 13) := by
  have hnext := (hmem next).mp (by simp)
  have hnextlt : ∀ i ∈ rest, next < i := by
    intro i hi
    exact List.rel_of_pairwise_cons hsort hi
  refine ⟨?_, ?_, hnext.1, hnext.2.1, hnext.2.2⟩
  · intro i
    constructor
    · intro hi
      have h1 := (hmem i).mp (by simp [hi])
      exact ⟨hnextlt i hi, h1.2.1, h1.2.2⟩
    · intro ⟨h1, h2, h3⟩
      have : i ∈ next :: rest := (hmem i).mpr ⟨by omega, h2, h3⟩
      rcases List.mem_cons.mp this with heq | hi
      · omega
      · assumption
  · intro p hp i hpi hinext hbyte
    have : i ∈ next :: rest := (hmem i).mpr ⟨by omega, by omega, hbyte⟩
    rcases List.mem_cons.mp this with heq | hi
    · omega
    · exact absurd (hnextlt i hi) (by omega)

end NewlineNormalizer
namespace NewlineNormalizer

lemma dosLoop_eq (s : List Nat) (iter : List Nat) (out : List Nat)
    (crlf : Nat) (pos : Nat)
    (hsort : List.Pairwise (· < ·) iter)
    (hmem : ∀ i, i ∈ iter ↔ crlf < i ∧ i < s.length ∧
      (s.getD i 0 = 10 ∨ s.getD i 0 = 13))
    (hpos : pos ≤ s.length)
    (hcase : (pos ≤ crlf ∧ crlf < s.length ∧
        (s.getD crlf 0 = 10 ∨ s.getD crlf 0 = 13) ∧
        dosSpecNorm (s.drop pos) =
          (s.drop pos).take (crlf - pos) ++ dosSpecNorm (s.drop crlf)) ∨
      crlf + 1 = pos) :
    dosLoop s (s.length - 1) out crlf iter pos =
      some (out ++ dosSpecNorm (s.drop pos)) := by
  induction iter generalizing out crlf pos with
  | nil =>
    have hnotail : ∀ p, crlf < p →
        ∀ i, p ≤ i → i < s.length → ¬(s.getD i 0 = 10 ∨ s.getD i 0 = 13) := by
      intro p hp i hpi hil hbyte
      have : i ∈ ([] : List Nat) := (hmem i).mpr ⟨by omega, hil, hbyte⟩
      simp at this
    rw [dosLoop]
    dsimp only
    rcases hcase with ⟨hple, hlt, hbyte, hsplit⟩ | hskip
    · rw [if_pos hple, sliceIndex_eq s pos crlf hple (le_of_lt hlt),
        get?_eq_some_getD s crlf hlt]
      dsimp only
      rcases hbyte with h10 | h13
      · -- current byte is \n
        rw [if_neg (by rintro ⟨hc, _⟩; omega)]
        dsimp only
        have hdrop : s.drop crlf = 10 :: s.drop (crlf + 1) := by
          rw [drop_eq_cons s crlf hlt, h10]
        have hnorm : dosSpecNorm (s.drop crlf) =
            13 :: 10 :: dosSpecNorm (s.drop (crlf + 1)) := by
          rw [hdrop, dosSpecNorm_lf]
        have htail : dosSpecNorm (s.drop (crlf + 1)) = s.drop (crlf + 1) :=
          dos_tail_self s (crlf + 1) (hnotail (crlf + 1) (by omega))
        by_cases hlast : crlf + 1 < s.length
        · rw [if_pos hlast,
            sliceIndex_eq s (crlf + 1) s.length (by omega) le_rfl]
          have hfull : (s.drop (crlf + 1)).take (s.length - (crlf + 1)) =
              s.drop (crlf + 1) := by
            conv_lhs => rw [← List.length_drop (crlf + 1) s]
            exact List.take_length _
          rw [hfull, hsplit, hnorm, htail]
          simp
        · rw [if_neg hlast]
          have hdrop2 : s.drop (crlf + 1) = [] :=
            List.drop_eq_nil_of_le (by omega)
          rw [hsplit, hnorm, htail, hdrop2]
          simp
      · -- current byte is \r
        by_cases hend : crlf < s.length - 1
        · rw [if_pos ⟨h13, hend⟩, get?_eq_some_getD s (crlf + 1) (by omega)]
          dsimp only
          by_cases h10n : s.getD (crlf + 1) 0 = 10
          · rw [if_pos h10n, show crlf + 1 + 1 = crlf + 2 from rfl]
            have hdrop : s.drop crlf = 13 :: 10 :: s.drop (crlf + 2) := by
              rw [drop_eq_cons s crlf hlt, h13,
                drop_eq_cons s (crlf + 1) (by omega), h10n]
            have hnorm : dosSpecNorm (s.drop crlf) =
                13 :: 10 :: dosSpecNorm (s.drop (crlf + 2)) := by
              rw [hdrop, dosSpecNorm]
            have htail : dosSpecNorm (s.drop (crlf + 2)) = s.drop (crlf + 2) :=
              dos_tail_self s (crlf + 2) (hnotail (crlf + 2) (by omega))
            by_cases hlast : crlf + 2 < s.length
            · rw [if_pos hlast,
                sliceIndex_eq s (crlf + 2) s.length (by omega) le_rfl]
              have hfull : (s.drop (crlf + 2)).take (s.length - (crlf + 2)) =
                  s.drop (crlf + 2) := by
                conv_lhs => rw [← List.length_drop (crlf + 2) s]
                exact List.take_length _
              rw [hfull, hsplit, hnorm, htail]
              simp
            · rw [if_neg hlast]
              have hdrop2 : s.drop (crlf + 2) = [] :=
                List.drop_eq_nil_of_le (by omega)
              rw [hsplit, hnorm, htail, hdrop2]
              simp
          · rw [if_neg h10n]
            have hdrop : s.drop crlf = 13 :: s.drop (crlf + 1) := by
              rw [drop_eq_cons s crlf hlt, h13]
            have hnorm : dosSpecNorm (s.drop crlf) =
                13 :: 10 :: dosSpecNorm (s.drop (crlf + 1)) := by
              rw [hdrop]
              refine dosSpecNorm_cr _ ?_
              rw [List.head?_drop,
                List.getElem?_eq_getElem (by omega : crlf + 1 < s.length)]
              intro hcon
              apply h10n
              rw [List.getD_eq_getElem?_getD,
                List.getElem?_eq_getElem (by omega : crlf + 1 < s.length)]
              simpa using hcon
            have htail : dosSpecNorm (s.drop (crlf + 1)) = s.drop (crlf + 1) :=
              dos_tail_self s (crlf + 1) (hnotail (crlf + 1) (by omega))
            rw [if_pos (by omega : crlf + 1 < s.length),
              sliceIndex_eq s (crlf + 1) s.length (by omega) le_rfl]
            have hfull : (s.drop (crlf + 1)).take (s.length - (crlf + 1)) =
                s.drop (crlf + 1) := by
              conv_lhs => rw [← List.length_drop (crlf + 1) s]
              exact List.take_length _
            rw [hfull, hsplit, hnorm, htail]
            simp
        · -- \r is the last byte
          rw [if_neg (by rintro ⟨_, hc⟩; omega)]
          dsimp only
          have hlen1 : crlf + 1 = s.length := by omega
          have hdrop : s.drop crlf = [13] := by
            rw [drop_eq_cons s crlf hlt, h13,
              List.drop_eq_nil_of_le (by omega : s.length ≤ crlf + 1)]
          have hnorm : dosSpecNorm (s.drop crlf) = [13, 10] := by
            rw [hdrop]
            rfl
          rw [if_neg (by omega : ¬ crlf + 1 < s.length)]
          rw [hsplit, hnorm]
          simp
    · -- skipped match (the \n of a consumed \r\n)
      rw [if_neg (by omega : ¬ pos ≤ crlf)]
      dsimp only
      have htail : dosSpecNorm (s.drop pos) = s.drop pos :=
        dos_tail_self s pos (by
          intro i hpi hil hbyte
          have : i ∈ ([] : List Nat) := (hmem i).mpr ⟨by omega, hil, hbyte⟩
          simp at this)
      by_cases hlast : pos < s.length
      · rw [if_pos hlast, sliceIndex_eq s pos s.length (by omega) le_rfl]
        have hfull : (s.drop pos).take (s.length - pos) = s.drop pos := by
          conv_lhs => rw [← List.length_drop pos s]
          exact List.take_length _
        rw [hfull, htail]
      · rw [if_neg hlast]
        have hdrop2 : s.drop pos = [] := List.drop_eq_nil_of_le (by omega)
        rw [htail, hdrop2]
        simp
  | cons next rest ih =>
    obtain ⟨hmem', hspangen, hcn, hnlen, hnbyte⟩ :=
      iter_step s crlf next rest hsort hmem
    have hsort' : List.Pairwise (· < ·) rest := hsort.of_cons
    rw [dosLoop]
    dsimp only
    rcases hcase with ⟨hple, hlt, hbyte, hsplit⟩ | hskip
    · rw [if_pos hple, sliceIndex_eq s pos crlf hple (le_of_lt hlt),
        get?_eq_some_getD s crlf hlt]
      dsimp only
      rcases hbyte with h10 | h13
      · -- current byte is \n : pos3 = crlf + 1
        rw [if_neg (by rintro ⟨hc, _⟩; omega)]
        dsimp only
        have hdrop : s.drop crlf = 10 :: s.drop (crlf + 1) := by
          rw [drop_eq_cons s crlf hlt, h10]
        have hnorm : dosSpecNorm (s.drop crlf) =
            13 :: 10 :: dosSpecNorm (s.drop (crlf + 1)) := by
          rw [hdrop, dosSpecNorm_lf]
        have hposnext : crlf + 1 ≤ next := by omega
        rw [ih (out ++ (s.drop pos).take (crlf - pos) ++ [13, 10]) next
          (crlf + 1) hsort' hmem' (by omega)
          (Or.inl ⟨hposnext, hnlen, hnbyte,
            dos_span_split s (crlf + 1) next hposnext (le_of_lt hnlen)
              (hspangen (crlf + 1) (by omega))⟩)]
        rw [hsplit, hnorm]
        simp
      · -- current byte is \r
        by_cases hend : crlf < s.length - 1
        · rw [if_pos ⟨h13, hend⟩, get?_eq_some_getD s (crlf + 1) (by omega)]
          dsimp only
          by_cases h10n : s.getD (crlf + 1) 0 = 10
          · rw [if_pos h10n, show crlf + 1 + 1 = crlf + 2 from rfl]
            have hdrop : s.drop crlf = 13 :: 10 :: s.drop (crlf + 2) := by
              rw [drop_eq_cons s crlf hlt, h13,
                drop_eq_cons s (crlf + 1) (by omega), h10n]
            have hnorm : dosSpecNorm (s.drop crlf) =
                13 :: 10 :: dosSpecNorm (s.drop (crlf + 2)) := by
              rw [hdrop, dosSpecNorm]
            have hnewcase : (crlf + 2 ≤ next ∧ next < s.length ∧
                (s.getD next 0 = 10 ∨ s.getD next 0 = 13) ∧
                dosSpecNorm (s.drop (crlf + 2)) =
                  (s.drop (crlf + 2)).take (next - (crlf + 2)) ++
                    dosSpecNorm (s.drop next)) ∨ next + 1 = crlf + 2 := by
              by_cases hn1 : next = crlf + 1
              · right
                omega
              · left
                have hge : crlf + 2 ≤ next := by omega
                exact ⟨hge, hnlen, hnbyte,
                  dos_span_split s (crlf + 2) next hge (le_of_lt hnlen)
                    (hspangen (crlf + 2) (by omega))⟩
            rw [ih (out ++ (s.drop pos).take (crlf - pos) ++ [13, 10]) next
              (crlf + 2) hsort' hmem' (by omega) hnewcase]
            rw [hsplit, hnorm]
            simp
          · rw [if_neg h10n]
            have hdrop : s.drop crlf = 13 :: s.drop (crlf + 1) := by
              rw [drop_eq_cons s crlf hlt, h13]
            have hnorm : dosSpecNorm (s.drop crlf) =
                13 :: 10 :: dosSpecNorm (s.drop (crlf + 1)) := by
              rw [hdrop]
              refine dosSpecNorm_cr _ ?_
              rw [List.head?_drop,
                List.getElem?_eq_getElem (by omega : crlf + 1 < s.length)]
              intro hcon
              apply h10n
              rw [List.getD_eq_getElem?_getD,
                List.getElem?_eq_getElem (by omega : crlf + 1 < s.length)]
              simpa using hcon
            have hposnext : crlf + 1 ≤ next := by omega
            rw [ih (out ++ (s.drop pos).take (crlf - pos) ++ [13, 10]) next
              (crlf + 1) hsort' hmem' (by omega)
              (Or.inl ⟨hposnext, hnlen, hnbyte,
                dos_span_split s (crlf + 1) next hposnext (le_of_lt hnlen)
                  (hspangen (crlf + 1) (by omega))⟩)]
            rw [hsplit, hnorm]
            simp
        · -- \r is the last byte, but a later match exists: impossible
          exfalso
          omega
    · -- skipped match: state unchanged, move to the next match
      rw [if_neg (by omega : ¬ pos ≤ crlf)]
      dsimp only
      have hposnext : pos ≤ next := by omega
      exact ih out next pos hsort' hmem' hpos
        (Or.inl ⟨hposnext, hnlen, hnbyte,
          dos_span_split s pos next hposnext (le_of_lt hnlen)
            (hspangen pos (by omega))⟩)

end NewlineNormalizer
namespace NewlineNormalizer

lemma getD_take (s : List Nat) (n i : Nat) (h : i < n) :
    (s.take n).getD i 0 = s.getD i 0 := by
  rw [List.getD_eq_getElem?_getD, List.getD_eq_getElem?_getD,
    List.getElem?_take_of_lt h]

lemma fullyPaired_iff_all_matches (s : List Nat) :
    fullyPaired s ↔ ∀ m ∈ memchr2_iter 10 13 s, PairedAt s m := by
  constructor
  · intro h m hm
    obtain ⟨hlen, hbyte⟩ := (mem_memchr2_iter 10 13 s m).mp hm
    have hw := h m hlen
    rcases hbyte with h10 | h13
    · exact Or.inr ⟨h10, (hw.2 h10).1, (hw.2 h10).2⟩
    · exact Or.inl ⟨h13, (hw.1 h13).1, (hw.1 h13).2⟩
  · intro h i hi
    constructor
    · intro h13
      have := h i ((mem_memchr2_iter 10 13 s i).mpr ⟨hi, Or.inr h13⟩)
      rcases this with ⟨_, hp1, hp2⟩ | ⟨hq, _, _⟩
      · exact ⟨hp1, hp2⟩
      · omega
    · intro h10
      have := h i ((mem_memchr2_iter 10 13 s i).mpr ⟨hi, Or.inl h10⟩)
      rcases this with ⟨hq, _, _⟩ | ⟨_, hp1, hp2⟩
      · omega
      · exact ⟨hp1, hp2⟩

lemma to_dos_borrowed (s : List Nat) (h : fullyPaired s) :
    to_dos_newlines s = some (Cow.borrowed s) := by
  rw [to_dos_newlines]
  have hlen : ∀ i ∈ memchr2_iter 10 13 s, i < s.length := fun i hi =>
    ((mem_memchr2_iter 10 13 s i).mp hi).1
  rcases dosFindUnpaired_spec s _ hlen with ⟨heq, _⟩ |
    ⟨pre, crlf, rest, hsplit, heq, hpre, hcrlf⟩
  · rw [heq]
  · exfalso
    exact hcrlf ((fullyPaired_iff_all_matches s).mp h crlf
      (by rw [hsplit]; simp))

lemma to_dos_owned (s : List Nat) (h : ¬ fullyPaired s) :
    to_dos_newlines s = some (Cow.owned (dosSpecNorm s)) := by
  rw [to_dos_newlines]
  have hlen : ∀ i ∈ memchr2_iter 10 13 s, i < s.length := fun i hi =>
    ((mem_memchr2_iter 10 13 s i).mp hi).1
  rcases dosFindUnpaired_spec s _ hlen with ⟨heq, hall⟩ |
    ⟨pre, crlf, rest, hsplit, heq, hpre, hcrlf⟩
  · exact absurd ((fullyPaired_iff_all_matches s).mpr hall) h
  · rw [heq]
    dsimp only
    have hpw : List.Pairwise (· < ·) (pre ++ crlf :: rest) := by
      rw [← hsplit]
      exact pairwise_memchr2_iter 10 13 s
    have hpwparts := List.pairwise_append.mp hpw
    have hpwcr : List.Pairwise (· < ·) (crlf :: rest) := hpwparts.2.1
    have hprelt : ∀ a ∈ pre, a < crlf := fun a ha =>
      hpwparts.2.2 a ha crlf (by simp)
    have hcrmem : crlf ∈ memchr2_iter 10 13 s := by
      rw [hsplit]
      simp
    have hcrprops := (mem_memchr2_iter 10 13 s crlf).mp hcrmem
    have hmemrest : ∀ i, i ∈ rest ↔ crlf < i ∧ i < s.length ∧
        (s.getD i 0 = 10 ∨ s.getD i 0 = 13) := by
      intro i
      constructor
      · intro hi
        have h1 : i ∈ memchr2_iter 10 13 s := by
          rw [hsplit]
          simp [hi]
        have h2 := (mem_memchr2_iter 10 13 s i).mp h1
        exact ⟨List.rel_of_pairwise_cons hpwcr hi, h2.1, h2.2⟩
      · intro ⟨h1, h2, h3⟩
        have : i ∈ pre ++ crlf :: rest := by
          rw [← hsplit]
          exact (mem_memchr2_iter 10 13 s i).mpr ⟨h2, h3⟩
        rcases List.mem_append.mp this with hi | hi
        · exact absurd (hprelt i hi) (by omega)
        · rcases List.mem_cons.mp hi with heq2 | hi
          · omega
          · assumption
    -- the prefix before the first unpaired match is fully paired
    have hprepaired : ∀ m, m < crlf → m < s.length →
        (s.getD m 0 = 10 ∨ s.getD m 0 = 13) → PairedAt s m := by
      intro m hmc hml hbyte
      have : m ∈ pre ++ crlf :: rest := by
        rw [← hsplit]
        exact (mem_memchr2_iter 10 13 s m).mpr ⟨hml, hbyte⟩
      rcases List.mem_append.mp this with hi | hi
      · exact hpre m hi
      · rcases List.mem_cons.mp hi with heq2 | hi
        · omega
        · exact absurd (List.rel_of_pairwise_cons hpwcr hi) (by omega)
    have htake : fullyPaired (s.take crlf) := by
      intro i hi
      rw [List.length_take] at hi
      have hic : i < crlf := by omega
      have hil : i < s.length := by omega
      constructor
      · intro h13
        rw [getD_take s crlf i hic] at h13
        have hp : PairedAt s i := hprepaired i hic hil (Or.inr h13)
        rcases hp with ⟨_, hp1, hp2⟩ | ⟨hq, _, _⟩
        · -- the partner \n must still be inside the prefix
          have hi1c : i + 1 < crlf := by
            by_contra hcon
            have hieq : i + 1 = crlf := by omega
            apply hcrlf
            right
            refine ⟨by rw [← hieq]; exact hp2, by omega, ?_⟩
            have hieq2 : crlf - 1 = i := by omega
            rw [hieq2]
            exact h13
          rw [List.length_take, getD_take s crlf (i + 1) hi1c]
          exact ⟨by omega, hp2⟩
        · omega
      · intro h10
        rw [getD_take s crlf i hic] at h10
        have hp : PairedAt s i := hprepaired i hic hil (Or.inl h10)
        rcases hp with ⟨hq, _, _⟩ | ⟨_, hp1, hp2⟩
        · omega
        · refine ⟨hp1, ?_⟩
          rw [getD_take s crlf (i - 1) (by omega)]
          exact hp2
    have hsplit0 : dosSpecNorm (s.drop 0) =
        (s.drop 0).take (crlf - 0) ++ dosSpecNorm (s.drop crlf) := by
      simp only [List.drop_zero, Nat.sub_zero]
      conv_lhs => rw [← List.take_append_drop crlf s]
      exact dosSpecNorm_append_wellPaired _ _
        ((wellPairedB_iff_fullyPaired _).mpr htake)
    rw [dosLoop_eq s rest [] crlf 0 hpwcr.of_cons hmemrest (by omega)
      (Or.inl ⟨by omega, hcrprops.1, hcrprops.2, hsplit0⟩)]
    simp

lemma to_dos_bytes (s : List Nat) :
    ∃ c, to_dos_newlines s = some c ∧ c.bytes = dosSpecNorm s := by
  by_cases h : fullyPaired s
  · refine ⟨_, to_dos_borrowed s h, ?_⟩
    show s = dosSpecNorm s
    exact (dosSpecNorm_wellPaired_self s
      ((wellPairedB_iff_fullyPaired s).mpr h)).symm
  · exact ⟨_, to_dos_owned s h, rfl⟩

end NewlineNormalizer
namespace NewlineNormalizer

lemma unixSpecNorm_idem (s : List Nat) :
    unixSpecNorm (unixSpecNorm s) = unixSpecNorm s :=
  unixSpecNorm_no_cr _ (unixSpecNorm_no_cr_out s)

lemma dosSpecNorm_idem (s : List Nat) :
    dosSpecNorm (dosSpecNorm s) = dosSpecNorm s :=
  dosSpecNorm_wellPaired_self _ (wellPairedB_dosSpecNorm s)

lemma dosSpecNorm_append_not10 (p x : List Nat) (hx : x.head? ≠ some 10) :
    dosSpecNorm (p ++ x) = dosSpecNorm p ++ dosSpecNorm x := by
  induction p using dosSpecNorm.induct with
  | case1 => simp [dosSpecNorm]
  | case2 rest ih =>
    show dosSpecNorm (13 :: 10 :: (rest ++ x)) = _
    rw [dosSpecNorm, ih]
    rfl
  | case3 rest hne ih =>
    have h10 := head?_ne_ten rest hne
    have h10x : (rest ++ x).head? ≠ some 10 := by
      match rest, h10 with
      | [], _ => simpa using hx
      | b :: r, h10 => simpa using h10
    show dosSpecNorm (13 :: (rest ++ x)) = _
    rw [dosSpecNorm_cr _ h10x, dosSpecNorm_cr _ h10, ih]
    rfl
  | case4 rest ih =>
    show dosSpecNorm (10 :: (rest ++ x)) = _
    rw [dosSpecNorm_lf, dosSpecNorm_lf, ih]
    rfl
  | case5 b rest hp hb13 hb10 ih =>
    have hb13' : b ≠ 13 := fun hh => hb13 hh
    have hb10' : b ≠ 10 := fun hh => hb10 hh
    show dosSpecNorm (b :: (rest ++ x)) = _
    rw [dosSpecNorm_cons_ne b _ hb13' hb10',
      dosSpecNorm_cons_ne b _ hb13' hb10', ih]
    rfl

end NewlineNormalizer
namespace NewlineNormalizer

/-- C1: for every input, `to_unix_newlines` succeeds and its byte content is
the spec normalization: every newline occurrence (`\r\n` pair, lone `\r`,
lone `\n`) becomes a single `\n` (a pair consumes both bytes and emits one
`\n`, `\r\r` yields `\n\n`), and all non-newline bytes are preserved in
order. -/
theorem claim_C1_unix_contract (s : List Nat) :
    ∃ c, to_unix_newlines s = some c ∧ Cow.bytes c = unixSpecNorm s :=
  to_unix_bytes s

/-- C2: for every input, `to_dos_newlines` succeeds and its byte content is
the spec normalization: every newline occurrence becomes `\r\n`, existing
pairs are kept as one unit (not duplicated), lone `\r` and lone `\n` are
expanded, and all non-newline bytes are preserved in order. -/
theorem claim_C2_dos_contract (s : List Nat) :
    ∃ c, to_dos_newlines s = some c ∧ Cow.bytes c = dosSpecNorm s :=
  to_dos_bytes s

/-- C3: `to_unix_newlines` returns the borrowed input exactly when the
input contains no `\r` byte; when a `\r` is present it returns an owned
rebuilt buffer. -/
theorem claim_C3_unix_zero_copy (s : List Nat) :
    (to_unix_newlines s = some (Cow.borrowed s) ↔ 13 ∉ s) ∧
    (13 ∈ s ↔ ∃ out, to_unix_newlines s = some (Cow.owned out)) := by
  constructor
  · constructor
    · intro h hmem
      rw [to_unix_owned s hmem] at h
      simp at h
    · exact to_unix_borrowed s
  · constructor
    · intro h
      exact ⟨_, to_unix_owned s h⟩
    · rintro ⟨out, hout⟩
      by_contra hmem
      rw [to_unix_borrowed s hmem] at hout
      simp at hout

/-- C4: `to_dos_newlines` returns the borrowed input exactly when every
`\r` is immediately followed by `\n` and every `\n` is immediately
preceded by `\r` (the `fullyPaired` predicate); otherwise it returns an
owned rebuilt buffer. -/
theorem claim_C4_dos_zero_copy (s : List Nat) :
    (to_dos_newlines s = some (Cow.borrowed s) ↔ fullyPaired s) ∧
    (¬ fullyPaired s ↔ ∃ out, to_dos_newlines s = some (Cow.owned out)) := by
  constructor
  · constructor
    · intro h
      by_contra hnp
      rw [to_dos_owned s hnp] at h
      simp at h
    · exact to_dos_borrowed s
  · constructor
    · intro h
      exact ⟨_, to_dos_owned s h⟩
    · rintro ⟨out, hout⟩ hp
      rw [to_dos_borrowed s hp] at hout
      simp at hout

/-- C5: on valid UTF-8 input both operations run to completion (no `none`,
i.e. no out-of-bounds indexing is reachable in the embedded algorithms)
and produce valid UTF-8 output. -/
theorem claim_C5_safety (s : List Nat) (h : Utf8Chunks s) :
    (∃ c, to_unix_newlines s = some c ∧ Utf8Chunks (Cow.bytes c)) ∧
    (∃ c, to_dos_newlines s = some c ∧ Utf8Chunks (Cow.bytes c)) := by
  constructor
  · obtain ⟨c, hc, hb⟩ := to_unix_bytes s
    exact ⟨c, hc, hb ▸ utf8_unixSpecNorm h⟩
  · obtain ⟨c, hc, hb⟩ := to_dos_bytes s
    exact ⟨c, hc, hb ▸ utf8_dosSpecNorm h⟩

/-- Witness for C5 at the concrete input `"h\r\né"`
(bytes `[104, 13, 10, 195, 169]`). -/
theorem claim_C5_safety_witness :
    Utf8Chunks [104, 13, 10, 195, 169] ∧
      ((∃ c, to_unix_newlines [104, 13, 10, 195, 169] = some c ∧
          Utf8Chunks (Cow.bytes c)) ∧
       (∃ c, to_dos_newlines [104, 13, 10, 195, 169] = some c ∧
          Utf8Chunks (Cow.bytes c))) := by
  have hu : Utf8Chunks [104, 13, 10, 195, 169] :=
    Utf8Chunks.ascii (by omega) (Utf8Chunks.ascii (by omega)
      (Utf8Chunks.ascii (by omega) (Utf8Chunks.two (by omega) (by omega)
        ⟨by omega, by omega⟩ Utf8Chunks.nil)))
  exact ⟨hu, claim_C5_safety _ hu⟩

/-- C6: both operations are idempotent on their byte content: running
either one on its own output reproduces that output byte for byte. -/
theorem claim_C6_idempotent (s : List Nat) :
    (∃ c1 c2, to_unix_newlines s = some c1 ∧
      to_unix_newlines (Cow.bytes c1) = some c2 ∧
      Cow.bytes c2 = Cow.bytes c1) ∧
    (∃ c1 c2, to_dos_newlines s = some c1 ∧
      to_dos_newlines (Cow.bytes c1) = some c2 ∧
      Cow.bytes c2 = Cow.bytes c1) := by
  constructor
  · obtain ⟨c1, hc1, hb1⟩ := to_unix_bytes s
    obtain ⟨c2, hc2, hb2⟩ := to_unix_bytes (Cow.bytes c1)
    exact ⟨c1, c2, hc1, hc2, by rw [hb2, hb1, unixSpecNorm_idem]⟩
  · obtain ⟨c1, hc1, hb1⟩ := to_dos_bytes s
    obtain ⟨c2, hc2, hb2⟩ := to_dos_bytes (Cow.bytes c1)
    exact ⟨c1, c2, hc1, hc2, by rw [hb2, hb1, dosSpecNorm_idem]⟩

/-- C7: converting to dos form and then to unix form yields exactly one
`\n` per newline occurrence of the original text, whatever mixture of
`\r\n`, lone `\r` and lone `\n` it contained. -/
theorem claim_C7_cross_conversion (s : List Nat) :
    ∃ c1 c2, to_dos_newlines s = some c1 ∧
      to_unix_newlines (Cow.bytes c1) = some c2 ∧
      (Cow.bytes c2).count 10 = newlineCount s := by
  obtain ⟨c1, hc1, hb1⟩ := to_dos_bytes s
  obtain ⟨c2, hc2, hb2⟩ := to_unix_bytes (Cow.bytes c1)
  refine ⟨c1, c2, hc1, hc2, ?_⟩
  rw [hb2, hb1, unixSpecNorm_dosSpecNorm, count_ten_unixSpecNorm]

/-- C8: `to_dos_newlines` never shrinks and `to_unix_newlines` never grows
the text; both outputs are at most twice and at least half the input
length. -/
theorem claim_C8_length_bounds (s : List Nat) :
    ∃ cu cd, to_unix_newlines s = some cu ∧ to_dos_newlines s = some cd ∧
      s.length ≤ (Cow.bytes cd).length ∧
      (Cow.bytes cd).length ≤ 2 * s.length ∧
      s.length / 2 ≤ (Cow.bytes cd).length ∧
      (Cow.bytes cu).length ≤ s.length ∧
      (Cow.bytes cu).length ≤ 2 * s.length ∧
      s.length / 2 ≤ (Cow.bytes cu).length := by
  obtain ⟨cu, hcu, hbu⟩ := to_unix_bytes s
  obtain ⟨cd, hcd, hbd⟩ := to_dos_bytes s
  have h1 := unixSpecNorm_length s
  have h2 := dosSpecNorm_length s
  rw [← hbu] at h1
  rw [← hbd] at h2
  exact ⟨cu, cd, hcu, hcd, by omega, by omega, by omega, by omega,
    by omega, by omega⟩

/-- C9: dos-normalization boundary behavior: a `\n` at the very start is
always expanded to `\r\n`; a `\r` at the very end is always expanded to
`\r\n`; and in `...\r\n\n...` the second `\n` is independently expanded,
yielding adjacent `\r\n\r\n` with no deduplication. -/
theorem claim_C9_dos_boundaries (t p s : List Nat) :
    (∃ c, to_dos_newlines (10 :: t) = some c ∧
      Cow.bytes c = 13 :: 10 :: dosSpecNorm t) ∧
    (∃ c, to_dos_newlines (s ++ [13]) = some c ∧
      Cow.bytes c = dosSpecNorm s ++ [13, 10]) ∧
    (∃ c, to_dos_newlines (p ++ 13 :: 10 :: 10 :: t) = some c ∧
      Cow.bytes c = dosSpecNorm p ++ 13 :: 10 :: 13 :: 10 :: dosSpecNorm t) := by
  refine ⟨?_, ?_, ?_⟩
  · obtain ⟨c, hc, hb⟩ := to_dos_bytes (10 :: t)
    exact ⟨c, hc, by rw [hb, dosSpecNorm_lf]⟩
  · obtain ⟨c, hc, hb⟩ := to_dos_bytes (s ++ [13])
    refine ⟨c, hc, ?_⟩
    rw [hb, dosSpecNorm_append_not10 s [13] (by simp)]
    rfl
  · obtain ⟨c, hc, hb⟩ := to_dos_bytes (p ++ 13 :: 10 :: 10 :: t)
    refine ⟨c, hc, ?_⟩
    rw [hb, dosSpecNorm_append_not10 p (13 :: 10 :: 10 :: t) (by simp)]
    rfl

/-- C10: whenever either operation returns an owned (rebuilt) buffer, that
buffer differs byte-wise from the input. -/
theorem claim_C10_owned_differs (s : List Nat) :
    (∀ out, to_unix_newlines s = some (Cow.owned out) → out ≠ s) ∧
    (∀ out, to_dos_newlines s = some (Cow.owned out) → out ≠ s) := by
  constructor
  · intro out hout heq
    by_cases h : 13 ∈ s
    · rw [to_unix_owned s h] at hout
      have hb : out = unixSpecNorm s := by simpa using hout.symm
      have : (13 : Nat) ∈ unixSpecNorm s := by
        rw [← hb, heq]
        exact h
      exact unixSpecNorm_no_cr_out s 13 this rfl
    · rw [to_unix_borrowed s h] at hout
      simp at hout
  · intro out hout heq
    by_cases h : fullyPaired s
    · rw [to_dos_borrowed s h] at hout
      simp at hout
    · rw [to_dos_owned s h] at hout
      have hb : out = dosSpecNorm s := by simpa using hout.symm
      apply h
      rw [← wellPairedB_iff_fullyPaired, ← heq, hb]
      exact wellPairedB_dosSpecNorm s

/-- Witness for C10 at the concrete inputs `"\r"` (unix side) and `"\n"`
(dos side). -/
theorem claim_C10_owned_differs_witness :
    (to_unix_newlines [13] = some (Cow.owned [10]) ∧ [10] ≠ [13]) ∧
    (to_dos_newlines [10] = some (Cow.owned [13, 10]) ∧ [13, 10] ≠ [10]) := by
  refine ⟨⟨by decide, ?_⟩, ⟨by decide, ?_⟩⟩
  · exact (claim_C10_owned_differs [13]).1 [10] (by decide)
  · exact (claim_C10_owned_differs [10]).2 [13, 10] (by decide)

end NewlineNormalizer
